import Mathlib

/-
Verification of the cellular-trace / federated-averaging repository.

Shallow embedding of:
  * src/cellular_sim.py   (UEStateMachine, generate_dataset)
  * src/evaluate_metrics.py (check_semantic_validity)
  * src/fl_server.py      (FederatedServer: get_global_weights, submit_update, aggregate)

Modelling conventions:
  * Python floats are modelled as rationals (ℚ); `random.random()` draws, the
    `random.choice` between the two data-transfer tags, and the
    `random.uniform(0.01, 0.5)` time increments are passed in explicitly as
    inputs, so every theorem quantifies over all possible draws.
  * Torch state_dicts are modelled as `List ℚ` (the flattened parameter blob;
    every model in the system shares one architecture, hence one index set).
  * A Python call that raises an exception is modelled as returning `none`;
    mutations performed before the raise are kept, matching the surviving
    Python object.
-/

/-- The 3GPP control-plane message vocabulary (src/cellular_sim.py, MESSAGES). -/
def MESSAGES : List String :=
  ["RRC_CONNECTION_REQUEST",
   "RRC_CONNECTION_SETUP",
   "RRC_CONNECTION_SETUP_COMPLETE",
   "ATTACH_REQUEST",
   "AUTH_REQUEST",
   "AUTH_RESPONSE",
   "SEC_MODE_COMMAND",
   "SEC_MODE_COMPLETE",
   "ATTACH_ACCEPT",
   "ATTACH_COMPLETE",
   "SERVICE_REQUEST",
   "DATA_TRANSFER_UPLINK",
   "DATA_TRANSFER_DOWNLINK",
   "RRC_CONNECTION_RELEASE",
   "DETACH_REQUEST",
   "DETACH_ACCEPT"]

/-- A user-equipment state machine (src/cellular_sim.py, class UEStateMachine). -/
structure UEStateMachine where
  ue_id : ℕ
  state : String
  history : List String
deriving DecidableEq

/-- The message/state part of UEStateMachine.transition (src/cellular_sim.py lines 32-93).
The if/elif chain is mirrored literally; `r` models the `random.random()` draw made
in the CONNECTED branch, `c` models `random.choice` of the two data tags
(true = DATA_TRANSFER_UPLINK).  An unrecognized state falls through, leaving
`msg = None` and the state unchanged, exactly as in the Python method. -/
def transitionMsgState (s : String) (r : ℚ) (c : Bool) : Option String × String :=
  if s = "IDLE" then (some "RRC_CONNECTION_REQUEST", "RRC_WAIT")
  else if s = "RRC_WAIT" then (some "RRC_CONNECTION_SETUP", "RRC_SETUP")
  else if s = "RRC_SETUP" then (some "RRC_CONNECTION_SETUP_COMPLETE", "ATTACH_START")
  else if s = "ATTACH_START" then (some "ATTACH_REQUEST", "AUTH_WAIT")
  else if s = "AUTH_WAIT" then (some "AUTH_REQUEST", "AUTH_RESP")
  else if s = "AUTH_RESP" then (some "AUTH_RESPONSE", "SEC_WAIT")
  else if s = "SEC_WAIT" then (some "SEC_MODE_COMMAND", "SEC_COMP")
  else if s = "SEC_COMP" then (some "SEC_MODE_COMPLETE", "ATTACH_ACC_WAIT")
  else if s = "ATTACH_ACC_WAIT" then (some "ATTACH_ACCEPT", "ATTACH_COMP")
  else if s = "ATTACH_COMP" then (some "ATTACH_COMPLETE", "CONNECTED")
  else if s = "CONNECTED" then
    if r < 4/5 then
      (some (if c then "DATA_TRANSFER_UPLINK" else "DATA_TRANSFER_DOWNLINK"), "CONNECTED")
    else
      (some "DETACH_REQUEST", "DETACH_WAIT")
  else if s = "DETACH_WAIT" then (some "DETACH_ACCEPT", "IDLE")
  else (none, s)

/-- UEStateMachine.transition: emits the message, updates the state and,
when a message was produced, appends it to the history (src/cellular_sim.py
lines 32-93, including the `if msg: self.history.append(msg)` tail). -/
def UEStateMachine.transition (ue : UEStateMachine) (r : ℚ) (c : Bool) :
    Option String × UEStateMachine :=
  let ms := transitionMsgState ue.state r c
  (ms.1, ⟨ue.ue_id, ms.2,
    match ms.1 with
    | some m => ue.history ++ [m]
    | none => ue.history⟩)

/-- The closed set of states of the machine (spec §4.1; exactly the states
recognized by the if/elif chain of UEStateMachine.transition). -/
def ClosedStates : List String :=
  ["IDLE", "RRC_WAIT", "RRC_SETUP", "ATTACH_START", "AUTH_WAIT", "AUTH_RESP",
   "SEC_WAIT", "SEC_COMP", "ATTACH_ACC_WAIT", "ATTACH_COMP", "CONNECTED", "DETACH_WAIT"]

/-- One emitted event (src/cellular_sim.py, the rows appended in generate_dataset;
the timestamp is the value of the `timestamp` variable when the row is emitted —
the 3-decimal textual formatting of the CSV file format is outside the embedding). -/
structure Event where
  timestamp : ℚ
  ue_id : ℕ
  message : String
deriving DecidableEq

/-- The randomness consumed by one iteration of the generate_dataset loop:
`pick` models `random.choice(ues)` (reduced mod the pool size), `r` and `c`
the draws inside transition, `delta` the `random.uniform(0.01, 0.5)` increment. -/
structure Draw where
  pick : ℕ
  r : ℚ
  c : Bool
  delta : ℚ
deriving DecidableEq

/-- The loop state of generate_dataset: the UE pool, the running timestamp
and the accumulated event rows. -/
structure GenState where
  ues : List UEStateMachine
  timestamp : ℚ
  events : List Event
deriving DecidableEq

/-- One iteration of the generate_dataset loop (src/cellular_sim.py lines 103-111):
pick a UE, call transition on it, and only `if msg:` advance the timestamp and
append an event row.  Picking from an empty pool raises in Python; the `none`
branch below is unreachable under the nonempty-pool hypothesis used by every
theorem about the generator. -/
def genStep (g : GenState) (d : Draw) : GenState :=
  match g.ues[d.pick % g.ues.length]? with
  | none => g
  | some ue =>
    let mu := ue.transition d.r d.c
    let ues' := g.ues.set (d.pick % g.ues.length) mu.2
    match mu.1 with
    | some m =>
      ⟨ues', g.timestamp + d.delta,
       g.events ++ [⟨g.timestamp + d.delta, ue.ue_id, m⟩]⟩
    | none => ⟨ues', g.timestamp, g.events⟩

/-- The initial loop state of generate_dataset: `num_ues` machines, all in
IDLE with empty history, baseline timestamp 1000.0, no events yet. -/
def initGen (num_ues : ℕ) : GenState :=
  ⟨(List.range num_ues).map (fun i => ⟨i, "IDLE", []⟩), 1000, []⟩

/-- generate_dataset (src/cellular_sim.py lines 95-111): run the loop once per
draw (`for _ in range(max_events)` with `max_events = draws.length`) and return
the emitted event rows, in emission order. -/
def generate_dataset (num_ues : ℕ) (draws : List Draw) : List Event :=
  (draws.foldl genStep (initGen num_ues)).events

/-- Consecutive pairs of a message list, mirroring the index loop
`prev = seq[i-1] if i > 0 else "START"` of check_semantic_validity once the
sentinel has been consed on. -/
def adjPairs : List String → List (String × String)
  | a :: b :: rest => (a, b) :: adjPairs (b :: rest)
  | _ => []

/-- The pairs walked by check_semantic_validity for one sequence: the START
sentinel stands for the predecessor of the first element. -/
def pairsWithStart (seq : List String) : List (String × String) :=
  adjPairs ("START" :: seq)

/-- The messages emitted by a run of the state machine from state `s`, one
transition per random draw (used by the bootstrap loop of
check_semantic_validity, src/evaluate_metrics.py lines 50-61; a `None` message
from an unrecognized state is skipped exactly as the bootstrap's
`if curr:` guard does). -/
def runMsgs : String → List (ℚ × Bool) → List String
  | _, [] => []
  | s, rc :: rest =>
    match transitionMsgState s rc.1 rc.2 with
    | (some m, s') => m :: runMsgs s' rest
    | (none, s') => runMsgs s' rest

/-- The bootstrapped transition-pair set of check_semantic_validity: each cycle
restarts a dummy UE at IDLE with an empty history and records every
(prev-or-START, curr) pair it emits.  `cycles` carries the random draws each
cycle consumes, so quantifying over `cycles` quantifies over every possible
outcome of the bootstrap sampling. -/
def bootstrapPairs (cycles : List (List (ℚ × Bool))) : List (String × String) :=
  (cycles.map (fun d => pairsWithStart (runMsgs "IDLE" d))).flatten

/-- Python's substring containment (`needle in hay`). -/
def strContains (hay needle : String) : Bool :=
  (List.range (hay.data.length + 1)).any (fun i => needle.data.isPrefixOf (hay.data.drop i))

/-- One pair check of check_semantic_validity (src/evaluate_metrics.py lines
70-79): the pair is accepted if it is in the bootstrapped set, by the
(dead) START re-check, or by the data-transfer relaxation
`"DATA" in prev and "DATA" in curr`. -/
def pairAllowed (T : List (String × String)) (p : String × String) : Bool :=
  decide (p ∈ T) || (decide (p.1 = "START") && decide (p ∈ T)) ||
    (strContains p.1 "DATA" && strContains p.2 "DATA")

/-- Per-sequence verdict of check_semantic_validity: valid iff every walked
pair is allowed. -/
def seqValid (T : List (String × String)) (seq : List String) : Bool :=
  (pairsWithStart seq).all (pairAllowed T)

/-- check_semantic_validity (src/evaluate_metrics.py lines 49-83): fraction of
valid sequences, 0.0 when none were scored. -/
def check_semantic_validity (cycles : List (List (ℚ × Bool)))
    (seqs : List (List String)) : ℚ :=
  if seqs.length = 0 then 0
  else ((seqs.filter (seqValid (bootstrapPairs cycles))).length : ℚ) / (seqs.length : ℚ)

/-- One pending client update (src/fl_server.py, the dict appended by
submit_update: id / weights / samples). -/
structure ClientUpdate where
  id : String
  weights : List ℚ
  samples : ℕ
deriving DecidableEq

/-- The wire encoding of a parameter blob, modelling
`base64.b64encode(pickle.dumps(state_dict))`: a distinct value type whose
construction copies the parameters, so handing it out never hands out a live
reference to the stored model. -/
structure EncodedBlob where
  data : List ℚ
deriving DecidableEq

/-- Serialize a parameter blob (pickle.dumps followed by base64 encoding). -/
def b64pickle (w : List ℚ) : EncodedBlob := ⟨w⟩

/-- Deserialize a parameter blob (base64 decoding followed by pickle.loads). -/
def b64unpickle (b : EncodedBlob) : List ℚ := b.data

/-- The quorum constant MIN_CLIENTS (src/fl_server.py line 14). -/
def MIN_CLIENTS : ℕ := 2

/-- The coordinator state (src/fl_server.py, class FederatedServer):
the global model's parameter blob, the pending update list and the round
counter. -/
structure FederatedServer where
  global_weights : List ℚ
  client_updates : List ClientUpdate
  round : ℕ
deriving DecidableEq

/-- Modelled from the spec: FederatedServer.__init__ builds the initial global
model with `CPTGPT(tokenizer.vocab_size)` from cpt_model.py, which is not in
the repository sources; per spec §4.4 the GlobalModel is "initialized once at
construction (caller-supplied initial parameters)", so the initial blob is
taken as a parameter.  Pending updates start empty and the round counter at 0,
as in src/fl_server.py lines 18-24. -/
def FederatedServer.init (w0 : List ℚ) : FederatedServer := ⟨w0, [], 0⟩

/-- One step of the FedAvg accumulation
`avg_weights[key] += client['weights'][key] * weight` over the whole blob. -/
def addScaled (acc w : List ℚ) (q : ℚ) : List ℚ :=
  List.zipWith (fun a b => a + b * q) acc w

/-- The FedAvg computation of FederatedServer.aggregate
(src/fl_server.py lines 62-73): sum the sample counts, start from a zero blob
shaped like the first pending update, and add every update scaled by
`samples / total_samples`.  `none` models the Python exceptions: IndexError on
`client_updates[0]` when the list is empty, ZeroDivisionError on
`samples / total_samples` when the counts sum to zero. -/
def fedavg (updates : List ClientUpdate) : Option (List ℚ) :=
  match updates.head? with
  | none => none
  | some u0 =>
    if (updates.map (fun c => c.samples)).sum = 0 then none
    else
      some (updates.foldl
        (fun acc c => addScaled acc c.weights
          ((c.samples : ℚ) / (((updates.map (fun c => c.samples)).sum : ℕ) : ℚ)))
        (u0.weights.map (fun _ => (0 : ℚ))))

/-- FederatedServer.aggregate (src/fl_server.py lines 58-81): on success the
averaged blob replaces the global model, the pending list is cleared and the
round counter is incremented; `none` when the FedAvg computation raises. -/
def FederatedServer.aggregate (s : FederatedServer) : Option FederatedServer :=
  (fedavg s.client_updates).map (fun w => ⟨w, [], s.round + 1⟩)

/-- FederatedServer.get_global_weights (src/fl_server.py lines 28-34): returns
the base64-encoded pickled global blob; the state is untouched. -/
def FederatedServer.get_global_weights (s : FederatedServer) :
    EncodedBlob × FederatedServer :=
  (b64pickle s.global_weights, s)

/-- FederatedServer.submit_update (src/fl_server.py lines 36-56): decode the
blob, append the pending update, and if the pending list has reached
MIN_CLIENTS aggregate synchronously.  The second component is the returned
status; `none` models an exception escaping the call (the aggregation raise),
in which case the appended update remains pending on the surviving server
object. -/
def FederatedServer.submit_update (s : FederatedServer) (client_id : String)
    (encoded : EncodedBlob) (num_samples : ℕ) : FederatedServer × Option String :=
  let s1 : FederatedServer :=
    ⟨s.global_weights,
     s.client_updates ++ [⟨client_id, b64unpickle encoded, num_samples⟩],
     s.round⟩
  if MIN_CLIENTS ≤ s1.client_updates.length then
    match s1.aggregate with
    | some s2 => (s2, some "AGGREGATED")
    | none => (s1, none)
  else (s1, some "WAITING")

/-- An externally invocable coordinator operation (spec §4.4). -/
inductive ServerOp where
  | fetch : ServerOp
  | submit (client_id : String) (encoded : EncodedBlob) (num_samples : ℕ) : ServerOp
deriving DecidableEq

/-- The state reached after one coordinator operation. -/
def runOp (s : FederatedServer) (op : ServerOp) : FederatedServer :=
  match op with
  | .fetch => s.get_global_weights.2
  | .submit id e n => (s.submit_update id e n).1

/-- The state reached after a sequence of coordinator operations. -/
def runOps (s : FederatedServer) (ops : List ServerOp) : FederatedServer :=
  ops.foldl runOp s

/-- A submission carrying a positive sample count (fetches trivially qualify). -/
def ServerOp.positiveSamples : ServerOp → Prop
  | .fetch => True
  | .submit _ _ n => 0 < n

instance : DecidablePred ServerOp.positiveSamples := fun op => by
  cases op <;> simp only [ServerOp.positiveSamples] <;> infer_instance

/-- The fixed transition table of spec §4.1, stated as a predicate on one
transition call of the source machine: a message is always emitted and
appended to the entity's history; every state except CONNECTED has exactly
one deterministic successor and fixed message; from CONNECTED a draw
r < 0.8 emits one of the two data-transfer tags and stays in CONNECTED,
otherwise DETACH_REQUEST moves to DETACH_WAIT; DETACH_WAIT emits
DETACH_ACCEPT and returns to IDLE. -/
def FollowsSpecTable (ue : UEStateMachine) (r : ℚ) (c : Bool) : Prop :=
  (∃ m, (ue.transition r c).1 = some m ∧
    (ue.transition r c).2.history = ue.history ++ [m]) ∧
  (ue.state = "IDLE" → (ue.transition r c).1 = some "RRC_CONNECTION_REQUEST" ∧
    (ue.transition r c).2.state = "RRC_WAIT") ∧
  (ue.state = "RRC_WAIT" → (ue.transition r c).1 = some "RRC_CONNECTION_SETUP" ∧
    (ue.transition r c).2.state = "RRC_SETUP") ∧
  (ue.state = "RRC_SETUP" → (ue.transition r c).1 = some "RRC_CONNECTION_SETUP_COMPLETE" ∧
    (ue.transition r c).2.state = "ATTACH_START") ∧
  (ue.state = "ATTACH_START" → (ue.transition r c).1 = some "ATTACH_REQUEST" ∧
    (ue.transition r c).2.state = "AUTH_WAIT") ∧
  (ue.state = "AUTH_WAIT" → (ue.transition r c).1 = some "AUTH_REQUEST" ∧
    (ue.transition r c).2.state = "AUTH_RESP") ∧
  (ue.state = "AUTH_RESP" → (ue.transition r c).1 = some "AUTH_RESPONSE" ∧
    (ue.transition r c).2.state = "SEC_WAIT") ∧
  (ue.state = "SEC_WAIT" → (ue.transition r c).1 = some "SEC_MODE_COMMAND" ∧
    (ue.transition r c).2.state = "SEC_COMP") ∧
  (ue.state = "SEC_COMP" → (ue.transition r c).1 = some "SEC_MODE_COMPLETE" ∧
    (ue.transition r c).2.state = "ATTACH_ACC_WAIT") ∧
  (ue.state = "ATTACH_ACC_WAIT" → (ue.transition r c).1 = some "ATTACH_ACCEPT" ∧
    (ue.transition r c).2.state = "ATTACH_COMP") ∧
  (ue.state = "ATTACH_COMP" → (ue.transition r c).1 = some "ATTACH_COMPLETE" ∧
    (ue.transition r c).2.state = "CONNECTED") ∧
  (ue.state = "CONNECTED" →
    (r < 4/5 → ((ue.transition r c).1 = some "DATA_TRANSFER_UPLINK" ∨
        (ue.transition r c).1 = some "DATA_TRANSFER_DOWNLINK") ∧
      (ue.transition r c).2.state = "CONNECTED") ∧
    (¬ r < 4/5 → (ue.transition r c).1 = some "DETACH_REQUEST" ∧
      (ue.transition r c).2.state = "DETACH_WAIT")) ∧
  (ue.state = "DETACH_WAIT" → (ue.transition r c).1 = some "DETACH_ACCEPT" ∧
    (ue.transition r c).2.state = "IDLE")

/-- Coordinator invariant: fewer pending updates than the quorum, all of them
with positive sample counts. -/
def ServerInv (s : FederatedServer) : Prop :=
  s.client_updates.length < MIN_CLIENTS ∧ ∀ c ∈ s.client_updates, 0 < c.samples

/-- Spacing constraint between two consecutive emitted events: at least 0.01
and strictly less than 0.5 apart (spec §8, TraceGenerator output). -/
def goodGap (e1 e2 : Event) : Prop :=
  1/100 ≤ e2.timestamp - e1.timestamp ∧ e2.timestamp - e1.timestamp < 1/2

/-- Adding two scaled blobs commutes, elementwise and in truncation length. -/
theorem addScaled_comm : ∀ (acc w w' : List ℚ) (q q' : ℚ),
    addScaled (addScaled acc w q) w' q' = addScaled (addScaled acc w' q') w q := by
  intro acc
  induction acc with
  | nil => intro w w' q q'; cases w <;> cases w' <;> simp [addScaled]
  | cons a acc ih =>
    intro w w' q q'
    cases w with
    | nil => cases w' <;> simp [addScaled]
    | cons b w =>
      cases w' with
      | nil => simp [addScaled]
      | cons b' w' =>
        have htail := ih w w' q q'
        simp only [addScaled, List.zipWith_cons_cons] at htail ⊢
        rw [htail]
        congr 1
        ring

/-- Length of one accumulation step. -/
theorem length_addScaled (acc w : List ℚ) (q : ℚ) :
    (addScaled acc w q).length = min acc.length w.length := by
  simp [addScaled]

/-- Entry `i` of one accumulation step. -/
theorem getD_addScaled (acc w : List ℚ) (q : ℚ) (i : ℕ)
    (h1 : i < acc.length) (h2 : i < w.length) :
    (addScaled acc w q).getD i 0 = acc.getD i 0 + w.getD i 0 * q := by
  have hlen : i < (addScaled acc w q).length := by
    rw [length_addScaled]; omega
  rw [List.getD_eq_getElem _ _ hlen, List.getD_eq_getElem _ _ h1,
    List.getD_eq_getElem _ _ h2]
  exact List.getElem_zipWith

/-- The FedAvg accumulation loop keeps the blob length of its accumulator and
computes, entrywise, the accumulator plus the weighted sum of the updates. -/
theorem foldl_addScaled_spec (t : ℚ) :
    ∀ (l : List ClientUpdate) (acc : List ℚ),
      (∀ c ∈ l, c.weights.length = acc.length) →
      (l.foldl (fun a c => addScaled a c.weights ((c.samples : ℚ) / t)) acc).length
          = acc.length ∧
      ∀ i, i < acc.length →
        (l.foldl (fun a c => addScaled a c.weights ((c.samples : ℚ) / t)) acc).getD i 0 =
          acc.getD i 0 + (l.map (fun c => c.weights.getD i 0 * ((c.samples : ℚ) / t))).sum := by
  intro l
  induction l with
  | nil => intro acc h; simp
  | cons c l ih =>
    intro acc h
    have hc : c.weights.length = acc.length := h c (by simp)
    have hlen' : (addScaled acc c.weights ((c.samples : ℚ) / t)).length = acc.length := by
      rw [length_addScaled, hc]; omega
    have hrest : ∀ c' ∈ l,
        c'.weights.length = (addScaled acc c.weights ((c.samples : ℚ) / t)).length := by
      intro c' hc'; rw [hlen']; exact h c' (by simp [hc'])
    obtain ⟨ihlen, ihget⟩ := ih (addScaled acc c.weights ((c.samples : ℚ) / t)) hrest
    constructor
    · simpa [hlen'] using ihlen
    · intro i hi
      have hstep := ihget i (by rw [hlen']; exact hi)
      simp only [List.foldl_cons]
      rw [hstep, getD_addScaled acc c.weights _ i hi (by omega)]
      simp [add_assoc]

/-- FedAvg on a nonempty update list with uniform blob length and a positive
total sample count succeeds and returns, entrywise, the sample-count-weighted
mean of the updates. -/
theorem fedavg_spec (updates : List ClientUpdate) (n : ℕ)
    (hne : updates ≠ [])
    (hlen : ∀ c ∈ updates, c.weights.length = n)
    (hpos : 0 < (updates.map (fun c => c.samples)).sum) :
    ∃ w : List ℚ, fedavg updates = some w ∧ w.length = n ∧
      ∀ i, i < n → w.getD i 0 =
        (updates.map (fun c => c.weights.getD i 0 *
          ((c.samples : ℚ) / (((updates.map (fun c => c.samples)).sum : ℕ) : ℚ)))).sum := by
  obtain ⟨u0, rest, rfl⟩ := List.exists_cons_of_ne_nil hne
  have hzlen : (u0.weights.map (fun _ => (0 : ℚ))).length = n := by
    simpa using hlen u0 (by simp)
  have hlen' : ∀ c ∈ u0 :: rest,
      c.weights.length = (u0.weights.map (fun _ => (0 : ℚ))).length := by
    intro c hc; rw [hzlen]; exact hlen c hc
  obtain ⟨hflen, hfget⟩ :=
    foldl_addScaled_spec
      ((((u0 :: rest).map (fun c => c.samples)).sum : ℕ) : ℚ)
      (u0 :: rest) (u0.weights.map (fun _ => (0 : ℚ))) hlen'
  have hf : fedavg (u0 :: rest) =
      some ((u0 :: rest).foldl
        (fun acc c => addScaled acc c.weights
          ((c.samples : ℚ) / ((((u0 :: rest).map (fun c => c.samples)).sum : ℕ) : ℚ)))
        (u0.weights.map (fun _ => (0 : ℚ)))) := by
    simp only [fedavg, List.head?_cons]
    rw [if_neg (by omega)]
  refine ⟨_, hf, by rw [hflen, hzlen], ?_⟩
  intro i hi
  have hz : (u0.weights.map (fun _ => (0 : ℚ))).getD i 0 = 0 := by
    rw [List.map_const']
    rcases lt_or_ge i (u0.weights.length) with h | h
    · rw [List.getD_eq_getElem _ _ (by simpa using h), List.getElem_replicate]
    · rw [List.getD_eq_default _ _ (by simpa using h)]
  have hval := hfget i (by omega)
  rw [hval, hz, zero_add]

/-- A successful aggregation pass always drains the pending set and bumps the
round counter by exactly one. -/
theorem aggregate_shape (s s' : FederatedServer) (h : s.aggregate = some s') :
    s'.client_updates = [] ∧ s'.round = s.round + 1 ∧
    fedavg s.client_updates = some s'.global_weights := by
  unfold FederatedServer.aggregate at h
  cases hf : fedavg s.client_updates with
  | none => rw [hf] at h; simp at h
  | some w =>
    rw [hf] at h
    simp only [Option.map_some', Option.some.injEq] at h
    rw [← h]
    exact ⟨rfl, rfl, rfl⟩

/-- FedAvg succeeds on a nonempty pending list whose sample counts do not all
vanish. -/
theorem fedavg_isSome (updates : List ClientUpdate) (hne : updates ≠ [])
    (hpos : 0 < (updates.map (fun c => c.samples)).sum) :
    ∃ w, fedavg updates = some w := by
  obtain ⟨u0, rest, rfl⟩ := List.exists_cons_of_ne_nil hne
  simp only [fedavg, List.head?_cons]
  rw [if_neg (by omega)]
  exact ⟨_, rfl⟩

/-- One positive-sample operation preserves the coordinator invariant and
never decreases the round counter. -/
theorem runOp_preserves (s : FederatedServer) (op : ServerOp)
    (hinv : ServerInv s) (hop : op.positiveSamples) :
    ServerInv (runOp s op) ∧ s.round ≤ (runOp s op).round := by
  obtain ⟨hlen, hpossamples⟩ := hinv
  cases op with
  | fetch => exact ⟨⟨hlen, hpossamples⟩, le_refl _⟩
  | submit id e n =>
    have hn : 0 < n := hop
    simp only [runOp, FederatedServer.submit_update]
    by_cases hq : MIN_CLIENTS ≤ (s.client_updates ++ [(⟨id, b64unpickle e, n⟩ : ClientUpdate)]).length
    · rw [if_pos hq]
      have hpos : 0 < (((s.client_updates ++ [(⟨id, b64unpickle e, n⟩ : ClientUpdate)]).map
          (fun c => c.samples)).sum) := by
        simp only [List.map_append, List.sum_append, List.map_cons, List.sum_cons,
          List.map_nil, List.sum_nil]
        omega
      obtain ⟨w, hw⟩ := fedavg_isSome _ (by simp) hpos
      have hagg : (⟨s.global_weights, s.client_updates ++ [(⟨id, b64unpickle e, n⟩ : ClientUpdate)],
          s.round⟩ : FederatedServer).aggregate = some ⟨w, [], s.round + 1⟩ := by
        unfold FederatedServer.aggregate
        rw [hw]
        rfl
      rw [hagg]
      refine ⟨⟨?_, ?_⟩, ?_⟩
      · simp [MIN_CLIENTS]
      · intro c hc; simp at hc
      · exact Nat.le_succ _
    · rw [if_neg hq]
      refine ⟨⟨by simp at hq ⊢; omega, ?_⟩, le_refl _⟩
      intro c hc
      rcases List.mem_append.mp hc with h | h
      · exact hpossamples c h
      · simp at h; rw [h]; exact hn

/-- A sequence of positive-sample operations preserves the coordinator
invariant and the round counter is monotone along it. -/
theorem runOps_preserves (ops : List ServerOp) : ∀ s : FederatedServer,
    ServerInv s → (∀ op ∈ ops, op.positiveSamples) →
    ServerInv (runOps s ops) ∧ s.round ≤ (runOps s ops).round := by
  induction ops with
  | nil => intro s hinv _; exact ⟨hinv, le_refl _⟩
  | cons op ops ih =>
    intro s hinv hpos
    obtain ⟨hinv', hle'⟩ := runOp_preserves s op hinv (hpos op (by simp))
    obtain ⟨hinv'', hle''⟩ := ih (runOp s op) hinv' (fun o ho => hpos o (by simp [ho]))
    exact ⟨hinv'', le_trans hle' hle''⟩

/-- The round counter never decreases across any single operation, positive
sample counts or not (a failed aggregation leaves it untouched). -/
theorem runOp_round_mono (s : FederatedServer) (op : ServerOp) :
    s.round ≤ (runOp s op).round := by
  cases op with
  | fetch => exact le_refl _
  | submit id e n =>
    simp only [runOp, FederatedServer.submit_update]
    by_cases hq : MIN_CLIENTS ≤ (s.client_updates ++ [(⟨id, b64unpickle e, n⟩ : ClientUpdate)]).length
    · rw [if_pos hq]
      cases hagg : (⟨s.global_weights, s.client_updates ++ [(⟨id, b64unpickle e, n⟩ : ClientUpdate)],
          s.round⟩ : FederatedServer).aggregate with
      | none => exact le_refl _
      | some s2 =>
        obtain ⟨-, hr, -⟩ := aggregate_shape _ _ hagg
        simp only [hr]
        exact Nat.le_succ _
    · rw [if_neg hq]

/-- The round counter is monotone across any operation sequence. -/
theorem runOps_round_mono (ops : List ServerOp) : ∀ s : FederatedServer,
    s.round ≤ (runOps s ops).round := by
  induction ops with
  | nil => intro s; exact le_refl _
  | cons op ops ih =>
    intro s
    exact le_trans (runOp_round_mono s op) (ih (runOp s op))

/-- Every single operation either leaves the round counter unchanged or
increments it by one while draining the pending set. -/
theorem runOp_round_step (s : FederatedServer) (op : ServerOp) :
    (runOp s op).round = s.round ∨
    ((runOp s op).round = s.round + 1 ∧ (runOp s op).client_updates = []) := by
  cases op with
  | fetch => exact Or.inl rfl
  | submit id e n =>
    simp only [runOp, FederatedServer.submit_update]
    by_cases hq : MIN_CLIENTS ≤ (s.client_updates ++ [(⟨id, b64unpickle e, n⟩ : ClientUpdate)]).length
    · rw [if_pos hq]
      cases hagg : (⟨s.global_weights, s.client_updates ++ [(⟨id, b64unpickle e, n⟩ : ClientUpdate)],
          s.round⟩ : FederatedServer).aggregate with
      | none => exact Or.inl rfl
      | some s2 =>
        obtain ⟨hdrain, hr, -⟩ := aggregate_shape _ _ hagg
        exact Or.inr ⟨hr, hdrain⟩
    · rw [if_neg hq]
      exact Or.inl rfl

/-- FedAvg is invariant under reordering of the pending updates, as long as all
blobs share the one architecture length (as every state_dict in the system
does): the total is a commutative sum and the accumulation steps commute. -/
theorem fedavg_perm (l1 l2 : List ClientUpdate) (n : ℕ) (hp : l1.Perm l2)
    (hlen : ∀ c ∈ l1, c.weights.length = n) :
    fedavg l1 = fedavg l2 := by
  cases l1 with
  | nil =>
    have h2 : l2 = [] := hp.symm.eq_nil
    rw [h2]
  | cons u0 rest =>
    cases l2 with
    | nil => exact absurd hp.eq_nil (by simp)
    | cons v0 rest2 =>
      have hsum : ((u0 :: rest).map (fun c => c.samples)).sum =
          ((v0 :: rest2).map (fun c => c.samples)).sum :=
        (hp.map (fun c => c.samples)).sum_eq
      have hz : u0.weights.map (fun _ => (0 : ℚ)) = v0.weights.map (fun _ => (0 : ℚ)) := by
        rw [List.map_const', List.map_const', hlen u0 (by simp),
          hlen v0 (hp.mem_iff.mpr (by simp))]
      simp only [fedavg, List.head?_cons]
      rw [← hsum, hz]
      by_cases h0 : ((u0 :: rest).map (fun c => c.samples)).sum = 0
      · rw [if_pos h0, if_pos h0]
      · rw [if_neg h0, if_neg h0]
        congr 1
        exact hp.foldl_eq'
          (fun x _hx y _hy z => addScaled_comm z x.weights y.weights _ _) _

/-- On the closed state set the transition always emits a message and lands
back in the closed state set. -/
theorem transition_closed (s : String) (hs : s ∈ ClosedStates) (r : ℚ) (c : Bool) :
    (transitionMsgState s r c).1.isSome = true ∧
    (transitionMsgState s r c).2 ∈ ClosedStates := by
  simp only [ClosedStates, List.mem_cons, List.not_mem_nil, or_false] at hs
  by_cases hr : r < (4 : ℚ)/5 <;>
    rcases hs with rfl | rfl | rfl | rfl | rfl | rfl | rfl | rfl | rfl | rfl | rfl | rfl <;>
      simp [transitionMsgState, ClosedStates, hr]

/-- The only state that emits ATTACH_ACCEPT is ATTACH_ACC_WAIT, and it moves
to ATTACH_COMP. -/
theorem emit_attach_accept (s : String) (hs : s ∈ ClosedStates) (r : ℚ) (c : Bool)
    (h : (transitionMsgState s r c).1 = some "ATTACH_ACCEPT") :
    (transitionMsgState s r c).2 = "ATTACH_COMP" := by
  simp only [ClosedStates, List.mem_cons, List.not_mem_nil, or_false] at hs
  by_cases hr : r < (4 : ℚ)/5 <;> cases c <;>
    rcases hs with rfl | rfl | rfl | rfl | rfl | rfl | rfl | rfl | rfl | rfl | rfl | rfl <;>
      simp [transitionMsgState, hr] at h ⊢

/-- From ATTACH_COMP the next emitted message is always ATTACH_COMPLETE. -/
theorem runMsgs_attach_comp_head (rest : List (ℚ × Bool)) (x : String) (t : List String)
    (h : runMsgs "ATTACH_COMP" rest = x :: t) : x = "ATTACH_COMPLETE" := by
  cases rest with
  | nil => simp [runMsgs] at h
  | cons rc rest' =>
    simp only [runMsgs, transitionMsgState] at h
    simp at h
    exact h.1.symm

/-- In any run of the machine started anywhere in the closed state set, the
message right after ATTACH_ACCEPT is always ATTACH_COMPLETE. -/
theorem adjPairs_runMsgs_attach : ∀ (d : List (ℚ × Bool)) (s : String),
    s ∈ ClosedStates → ∀ b : String,
    ("ATTACH_ACCEPT", b) ∈ adjPairs (runMsgs s d) → b = "ATTACH_COMPLETE" := by
  intro d
  induction d with
  | nil => intro s _hs b hb; simp [runMsgs, adjPairs] at hb
  | cons rc rest ih =>
    intro s hs b hb
    obtain ⟨hsome, hclosed⟩ := transition_closed s hs rc.1 rc.2
    obtain ⟨m, hm⟩ := Option.isSome_iff_exists.mp hsome
    rcases hts : transitionMsgState s rc.1 rc.2 with ⟨om, s'⟩
    rw [hts] at hm hclosed
    simp only at hm hclosed
    subst hm
    have hrun : runMsgs s (rc :: rest) = m :: runMsgs s' rest := by
      simp [runMsgs, hts]
    rw [hrun] at hb
    cases htail : runMsgs s' rest with
    | nil => rw [htail] at hb; simp [adjPairs] at hb
    | cons x t =>
      rw [htail] at hb
      rcases List.mem_cons.mp hb with heq | hmem
      · have hmA : m = "ATTACH_ACCEPT" := (Prod.mk.injEq _ _ _ _ ▸ heq).1.symm
        have hbx : b = x := congrArg Prod.snd heq
        have hs' : s' = "ATTACH_COMP" := by
          have := emit_attach_accept s hs rc.1 rc.2 (by rw [hts, hmA])
          rw [hts] at this
          exact this
        rw [hbx]
        exact runMsgs_attach_comp_head rest x t (hs' ▸ htail)
      · rw [← htail] at hmem
        exact ih s' hclosed b hmem

/-- No possible outcome of the bootstrap sampling ever records
ATTACH_ACCEPT followed by anything but ATTACH_COMPLETE. -/
theorem bootstrapPairs_attach (cycles : List (List (ℚ × Bool))) (b : String)
    (hb : ("ATTACH_ACCEPT", b) ∈ bootstrapPairs cycles) : b = "ATTACH_COMPLETE" := by
  simp only [bootstrapPairs, List.mem_flatten, List.mem_map] at hb
  obtain ⟨L, ⟨d, _hd, rfl⟩, hmem⟩ := hb
  cases hrun : runMsgs "IDLE" d with
  | nil => rw [pairsWithStart, hrun] at hmem; simp [adjPairs] at hmem
  | cons x t =>
    rw [pairsWithStart, hrun] at hmem
    rcases List.mem_cons.mp hmem with heq | hmem'
    · exact absurd (congrArg Prod.fst heq) (by simp)
    · rw [← hrun] at hmem'
      exact adjPairs_runMsgs_attach d "IDLE" (by simp [ClosedStates]) b hmem'

/-- Under a nonempty pool of machines in closed states, one generator
iteration keeps the pool size and closedness, advances the timestamp by the
drawn increment, and appends exactly one event stamped with the new time. -/
theorem genStep_emits (g : GenState) (d : Draw)
    (h1 : 0 < g.ues.length) (h2 : ∀ ue ∈ g.ues, ue.state ∈ ClosedStates) :
    (genStep g d).ues.length = g.ues.length ∧
    (∀ ue ∈ (genStep g d).ues, ue.state ∈ ClosedStates) ∧
    (genStep g d).timestamp = g.timestamp + d.delta ∧
    ∃ e : Event, e.timestamp = g.timestamp + d.delta ∧
      (genStep g d).events = g.events ++ [e] := by
  have hidx : d.pick % g.ues.length < g.ues.length := Nat.mod_lt _ h1
  have hget : g.ues[d.pick % g.ues.length]? = some g.ues[d.pick % g.ues.length] :=
    List.getElem?_eq_getElem hidx
  have hmem : g.ues[d.pick % g.ues.length] ∈ g.ues := List.getElem_mem hidx
  obtain ⟨hsome, hclosed⟩ :=
    transition_closed (g.ues[d.pick % g.ues.length]).state (h2 _ hmem) d.r d.c
  obtain ⟨m, hm⟩ := Option.isSome_iff_exists.mp hsome
  have hm' : ((g.ues[d.pick % g.ues.length]).transition d.r d.c).1 = some m := hm
  have hstep : genStep g d =
      ⟨g.ues.set (d.pick % g.ues.length)
          (((g.ues[d.pick % g.ues.length]).transition d.r d.c)).2,
        g.timestamp + d.delta,
        g.events ++ [⟨g.timestamp + d.delta, (g.ues[d.pick % g.ues.length]).ue_id, m⟩]⟩ := by
    rw [genStep, hget]
    simp only [hm']
  rw [hstep]
  refine ⟨by simp, ?_, rfl, ⟨_, rfl, rfl⟩⟩
  intro ue hue
  rcases List.mem_or_eq_of_mem_set hue with h | h
  · exact h2 ue h
  · rw [h]
    exact hclosed

/-- The generator loop emits exactly one event per iteration. -/
theorem gen_loop_count : ∀ (draws : List Draw) (g : GenState),
    0 < g.ues.length → (∀ ue ∈ g.ues, ue.state ∈ ClosedStates) →
    (draws.foldl genStep g).events.length = g.events.length + draws.length := by
  intro draws
  induction draws with
  | nil => intro g _ _; simp
  | cons d ds ih =>
    intro g h1 h2
    obtain ⟨hlen, hclosed, -, e, -, hev⟩ := genStep_emits g d h1 h2
    have := ih (genStep g d) (by rw [hlen]; exact h1) hclosed
    rw [List.foldl_cons, this, hev]
    simp
    omega

/-- The generator loop preserves the spacing chain on emitted events, with the
running timestamp equal to the last emitted timestamp. -/
theorem gen_loop_chain : ∀ (draws : List Draw) (g : GenState),
    0 < g.ues.length → (∀ ue ∈ g.ues, ue.state ∈ ClosedStates) →
    (∀ d ∈ draws, 1/100 ≤ d.delta ∧ d.delta < 1/2) →
    List.Chain' goodGap g.events →
    (∀ e, g.events.getLast? = some e → e.timestamp = g.timestamp) →
    List.Chain' goodGap (draws.foldl genStep g).events := by
  intro draws
  induction draws with
  | nil => intro g _ _ _ hchain _; simpa using hchain
  | cons d ds ih =>
    intro g h1 h2 hd hchain hlast
    obtain ⟨hlen, hclosed, hts, e, hets, hev⟩ := genStep_emits g d h1 h2
    obtain ⟨hd1, hd2⟩ := hd d (by simp)
    refine ih (genStep g d) (by rw [hlen]; exact h1) hclosed
      (fun d' hd' => hd d' (by simp [hd'])) ?_ ?_
    · rw [hev]
      rw [List.chain'_append]
      refine ⟨hchain, by simp [List.chain'_singleton], ?_⟩
      intro x hx y hy
      simp only [List.head?_cons, Option.mem_def, Option.some.injEq] at hy
      rw [← hy]
      have hxts : x.timestamp = g.timestamp := hlast x hx
      constructor
      · rw [hets, hxts]; linarith
      · rw [hets, hxts]; linarith
    · intro e' he'
      rw [hev] at he'
      rw [List.getLast?_append_of_ne_nil _ (by simp)] at he'
      simp only [List.getLast?_singleton, Option.some.injEq] at he'
      rw [← he', hets, hts]

/-- C1 (amended): when the coordinator aggregates a nonempty pending set of
architecture-uniform blobs with positive total sample count, the new global
parameters are exactly the sample-count-weighted mean of the pending updates:
entry i of the result is the sum over pending updates of
weights_i * (samples / total_samples).  At the spec's concrete input (30/70
samples, scalar values 2.0/10.0) this evaluates to 7.6, not the 7.4 stated in
the claim (see the counterexample). -/
theorem C1_aggregate_weighted_mean (s : FederatedServer) (n : ℕ)
    (hne : s.client_updates ≠ [])
    (hlen : ∀ c ∈ s.client_updates, c.weights.length = n)
    (hpos : 0 < (s.client_updates.map (fun c => c.samples)).sum) :
    ∃ s' : FederatedServer, s.aggregate = some s' ∧ s'.global_weights.length = n ∧
      ∀ i, i < n → s'.global_weights.getD i 0 =
        (s.client_updates.map (fun c => c.weights.getD i 0 *
          ((c.samples : ℚ) / (((s.client_updates.map (fun c => c.samples)).sum : ℕ) : ℚ)))).sum := by
  obtain ⟨w, hw, hwl, hwv⟩ := fedavg_spec s.client_updates n hne hlen hpos
  refine ⟨⟨w, [], s.round + 1⟩, ?_, hwl, hwv⟩
  unfold FederatedServer.aggregate
  rw [hw]
  rfl

/-- C1 counterexample: at the spec's own concrete input (sample counts 30 and
70, scalar parameters 2.0 and 10.0) the aggregated parameter is
2.0*0.3 + 10.0*0.7 = 7.6, which is not equal to the claimed 7.4. -/
theorem C1_counterexample :
    FederatedServer.aggregate ⟨[0], [⟨"w1", [2], 30⟩, ⟨"w2", [10], 70⟩], 0⟩ =
      some ⟨[(38 : ℚ)/5], [], 1⟩ ∧ (38 : ℚ)/5 = 7.6 ∧ ¬ ((38 : ℚ)/5 = 7.4) := by
  refine ⟨?_, by norm_num, by norm_num⟩
  simp only [FederatedServer.aggregate, fedavg, addScaled, List.head?_cons,
    List.map_cons, List.map_nil, List.sum_cons, List.sum_nil, List.foldl_cons,
    List.foldl_nil, List.zipWith_cons_cons, List.zipWith_nil_right, List.zipWith_nil_left]
  norm_num

/-- C1 witness: the weighted-mean theorem applied at the spec's concrete
two-update input. -/
theorem C1_witness :
    ((⟨[0], [⟨"w1", [2], 30⟩, ⟨"w2", [10], 70⟩], 0⟩ : FederatedServer).client_updates ≠ [] ∧
     (∀ c ∈ (⟨[0], [⟨"w1", [2], 30⟩, ⟨"w2", [10], 70⟩], 0⟩ : FederatedServer).client_updates,
        c.weights.length = 1) ∧
     0 < ((⟨[0], [⟨"w1", [2], 30⟩, ⟨"w2", [10], 70⟩], 0⟩ : FederatedServer).client_updates.map
        (fun c => c.samples)).sum) ∧
    ∃ s' : FederatedServer,
      (⟨[0], [⟨"w1", [2], 30⟩, ⟨"w2", [10], 70⟩], 0⟩ : FederatedServer).aggregate = some s' ∧
      s'.global_weights.length = 1 ∧
      ∀ i, i < 1 → s'.global_weights.getD i 0 =
        ((⟨[0], [⟨"w1", [2], 30⟩, ⟨"w2", [10], 70⟩], 0⟩ : FederatedServer).client_updates.map
          (fun c => c.weights.getD i 0 *
            ((c.samples : ℚ) /
              ((((⟨[0], [⟨"w1", [2], 30⟩, ⟨"w2", [10], 70⟩], 0⟩ : FederatedServer).client_updates.map
                (fun c => c.samples)).sum : ℕ) : ℚ)))).sum :=
  ⟨⟨by decide, by decide, by decide⟩,
    C1_aggregate_weighted_mean _ 1 (by decide) (by decide) (by decide)⟩

/-- C2 (amended): submit_update appends the update to the pending set; if the
pending set then has at least MIN_CLIENTS elements and a positive total
sample count, aggregation runs synchronously before the call returns and the
call returns "AGGREGATED"; if the quorum is not reached, no aggregation runs
and the call returns "WAITING" with exactly the appended update pending.
(With a zero total sample count the aggregation attempt raises and no status
is returned — see the counterexample.) -/
theorem C2_submit_update_spec (s : FederatedServer) (id : String) (e : EncodedBlob) (n : ℕ) :
    (MIN_CLIENTS ≤ s.client_updates.length + 1 →
      0 < ((s.client_updates ++ [(⟨id, b64unpickle e, n⟩ : ClientUpdate)]).map
        (fun c => c.samples)).sum →
      ∃ s2 : FederatedServer,
        (⟨s.global_weights, s.client_updates ++ [(⟨id, b64unpickle e, n⟩ : ClientUpdate)],
          s.round⟩ : FederatedServer).aggregate = some s2 ∧
        s.submit_update id e n = (s2, some "AGGREGATED")) ∧
    (s.client_updates.length + 1 < MIN_CLIENTS →
      s.submit_update id e n =
        (⟨s.global_weights, s.client_updates ++ [(⟨id, b64unpickle e, n⟩ : ClientUpdate)],
          s.round⟩, some "WAITING")) := by
  constructor
  · intro hq hpos
    obtain ⟨w, hw⟩ := fedavg_isSome _ (by simp) hpos
    have hagg : (⟨s.global_weights,
        s.client_updates ++ [(⟨id, b64unpickle e, n⟩ : ClientUpdate)],
        s.round⟩ : FederatedServer).aggregate = some ⟨w, [], s.round + 1⟩ := by
      unfold FederatedServer.aggregate
      rw [hw]
      rfl
    refine ⟨_, hagg, ?_⟩
    simp only [FederatedServer.submit_update]
    rw [if_pos (by simpa using hq), hagg]
  · intro hq
    simp only [FederatedServer.submit_update]
    rw [if_neg (by simp only [List.length_append, List.length_cons, List.length_nil]; omega)]

/-- C2 counterexample: a second zero-sample submission reaches the quorum,
but the synchronous aggregation divides by zero and the call raises instead
of returning "AGGREGATED". -/
theorem C2_counterexample :
    MIN_CLIENTS ≤
      ((((FederatedServer.init [1]).submit_update "w1" ⟨[5]⟩ 0).1.submit_update
        "w2" ⟨[7]⟩ 0).1).client_updates.length ∧
    ((((FederatedServer.init [1]).submit_update "w1" ⟨[5]⟩ 0).1.submit_update
      "w2" ⟨[7]⟩ 0).2) ≠ some "AGGREGATED" := by
  decide

/-- C2 witness: the submit theorem applied to a coordinator holding one
30-sample pending update that receives a 70-sample submission. -/
theorem C2_witness :
    (MIN_CLIENTS ≤ (⟨[0], [⟨"w1", [2], 30⟩], 0⟩ : FederatedServer).client_updates.length + 1 ∧
     0 < (((⟨[0], [⟨"w1", [2], 30⟩], 0⟩ : FederatedServer).client_updates ++
        [(⟨"w2", b64unpickle ⟨[10]⟩, 70⟩ : ClientUpdate)]).map (fun c => c.samples)).sum) ∧
    ∃ s2 : FederatedServer,
      (⟨(⟨[0], [⟨"w1", [2], 30⟩], 0⟩ : FederatedServer).global_weights,
        (⟨[0], [⟨"w1", [2], 30⟩], 0⟩ : FederatedServer).client_updates ++
          [(⟨"w2", b64unpickle ⟨[10]⟩, 70⟩ : ClientUpdate)],
        (⟨[0], [⟨"w1", [2], 30⟩], 0⟩ : FederatedServer).round⟩ : FederatedServer).aggregate
        = some s2 ∧
      (⟨[0], [⟨"w1", [2], 30⟩], 0⟩ : FederatedServer).submit_update "w2" ⟨[10]⟩ 70 =
        (s2, some "AGGREGATED") :=
  ⟨⟨by decide, by decide⟩,
    (C2_submit_update_spec ⟨[0], [⟨"w1", [2], 30⟩], 0⟩ "w2" ⟨[10]⟩ 70).1 (by decide) (by decide)⟩

/-- C3: the code does NOT guard zero-sample submissions — when every pending
sample count is zero the aggregation triggered by reaching the quorum
divides by zero (ZeroDivisionError, modelled as `none`), so the claim's
guarantee fails on the code exactly as the spec's defect note predicts: two
zero-sample submissions leave the first pending (WAITING) and make the
second raise. -/
theorem C3_zero_sample_division :
    ((FederatedServer.init [1]).submit_update "w1" ⟨[5]⟩ 0).2 = some "WAITING" ∧
    ((((FederatedServer.init [1]).submit_update "w1" ⟨[5]⟩ 0).1.submit_update
      "w2" ⟨[7]⟩ 0).2) = none := by
  decide

/-- C4 (amended): provided every submission carries a positive sample count,
the pending set stays strictly below the quorum after every prefix of the
operation sequence; unconditionally, a successful aggregation pass drains the
pending set to exactly 0 elements and increments the round counter by exactly
1, every single operation either leaves the round unchanged or performs such
a drain-and-increment, and the round counter is monotone along any operation
sequence.  (Without the positivity proviso a zero-sample quorum raises and
leaves MIN_CLIENTS updates pending — see the counterexample.) -/
theorem C4_pending_invariant_round_monotone (w0 : List ℚ) (ops : List ServerOp) :
    ((∀ op ∈ ops, op.positiveSamples) → ∀ pfx, pfx <+: ops →
      (runOps (FederatedServer.init w0) pfx).client_updates.length < MIN_CLIENTS) ∧
    (∀ s s' : FederatedServer, s.aggregate = some s' →
      s'.client_updates = [] ∧ s'.round = s.round + 1) ∧
    (∀ (s : FederatedServer) (op : ServerOp),
      (runOp s op).round = s.round ∨
      ((runOp s op).round = s.round + 1 ∧ (runOp s op).client_updates = [])) ∧
    (∀ pfx1 pfx2 : List ServerOp, pfx1 <+: pfx2 →
      (runOps (FederatedServer.init w0) pfx1).round ≤
        (runOps (FederatedServer.init w0) pfx2).round) := by
  refine ⟨?_, ?_, ?_, ?_⟩
  · intro hpos pfx hpfx
    have hinv0 : ServerInv (FederatedServer.init w0) :=
      ⟨by simp [FederatedServer.init, MIN_CLIENTS], by simp [FederatedServer.init]⟩
    exact (runOps_preserves pfx _ hinv0 (fun op hop => hpos op (hpfx.subset hop))).1.1
  · intro s s' h
    obtain ⟨h1, h2, -⟩ := aggregate_shape s s' h
    exact ⟨h1, h2⟩
  · exact runOp_round_step
  · intro pfx1 pfx2 h
    obtain ⟨t, rfl⟩ := h
    have happ : runOps (FederatedServer.init w0) (pfx1 ++ t) =
        runOps (runOps (FederatedServer.init w0) pfx1) t := by
      simp [runOps]
    rw [happ]
    exact runOps_round_mono t _

/-- C4 counterexample: two zero-sample submissions leave the pending set at
the quorum size after the second operation returns (the aggregation raise
keeps both updates pending), violating the between-operations invariant as
originally stated. -/
theorem C4_counterexample :
    ¬ ((runOps (FederatedServer.init [1])
        [.submit "w1" ⟨[5]⟩ 0, .submit "w2" ⟨[7]⟩ 0]).client_updates.length < MIN_CLIENTS) := by
  decide

/-- C4 witness: two positive-sample submissions trigger one aggregation and
leave the pending set empty, hence below the quorum. -/
theorem C4_witness :
    (∀ op ∈ ([.submit "w1" ⟨[2]⟩ 30, .submit "w2" ⟨[10]⟩ 70] : List ServerOp),
      op.positiveSamples) ∧
    (runOps (FederatedServer.init [0])
      [.submit "w1" ⟨[2]⟩ 30, .submit "w2" ⟨[10]⟩ 70]).client_updates.length < MIN_CLIENTS :=
  ⟨by decide,
    (C4_pending_invariant_round_monotone [0]
      [.submit "w1" ⟨[2]⟩ 30, .submit "w2" ⟨[10]⟩ 70]).1 (by decide) _ (List.prefix_refl _)⟩

/-- C5: fetch (get_global_weights) on a freshly constructed coordinator
returns the encoding of exactly the initial global parameters; on every state
it returns the serialized copy of the current parameters (a distinct encoded
value decoding back to them, never the stored list itself) and leaves the
entire coordinator state — parameters, pending set and round — unchanged. -/
theorem C5_fetch_frame (w0 : List ℚ) (s : FederatedServer) :
    (FederatedServer.init w0).get_global_weights =
      (b64pickle w0, FederatedServer.init w0) ∧
    s.get_global_weights.2 = s ∧
    s.get_global_weights.1 = b64pickle s.global_weights ∧
    b64unpickle s.get_global_weights.1 = s.global_weights :=
  ⟨rfl, rfl, rfl, rfl⟩

/-- C6: one aggregation pass is invariant under any permutation of the
pending-update list (all blobs sharing the one architecture length): both the
resulting global parameters and the raw FedAvg value coincide. -/
theorem C6_aggregate_perm_invariant (g1 g2 : List ℚ) (r : ℕ)
    (l1 l2 : List ClientUpdate) (n : ℕ) (hp : l1.Perm l2)
    (hlen : ∀ c ∈ l1, c.weights.length = n) :
    (⟨g1, l1, r⟩ : FederatedServer).aggregate.map (fun s => s.global_weights) =
      (⟨g2, l2, r⟩ : FederatedServer).aggregate.map (fun s => s.global_weights) ∧
    fedavg l1 = fedavg l2 := by
  have h := fedavg_perm l1 l2 n hp hlen
  constructor
  · unfold FederatedServer.aggregate
    rw [h]
  · exact h

/-- C6 witness: swapping the spec's two concrete updates leaves the FedAvg
result unchanged. -/
theorem C6_witness :
    (([⟨"a", [2], 30⟩, ⟨"b", [10], 70⟩] : List ClientUpdate).Perm
        [⟨"b", [10], 70⟩, ⟨"a", [2], 30⟩] ∧
     ∀ c ∈ ([⟨"a", [2], 30⟩, ⟨"b", [10], 70⟩] : List ClientUpdate),
        c.weights.length = 1) ∧
    fedavg [⟨"a", [2], 30⟩, ⟨"b", [10], 70⟩] =
      fedavg [⟨"b", [10], 70⟩, ⟨"a", [2], 30⟩] :=
  ⟨⟨by decide, by decide⟩,
    (C6_aggregate_perm_invariant [0] [0] 0 _ _ 1 (by decide) (by decide)).2⟩

/-- C7: over the closed state set the transition operation is total — it
always returns a (non-null) message, appends it to the entity's history, and
follows the spec's fixed table, including the probabilistic CONNECTED branch
and the DETACH_WAIT return to IDLE. -/
theorem C7_transition_total_table (ue : UEStateMachine) (r : ℚ) (c : Bool)
    (hs : ue.state ∈ ClosedStates) : FollowsSpecTable ue r c := by
  obtain ⟨u, st, hist⟩ := ue
  simp only [ClosedStates, List.mem_cons, List.not_mem_nil, or_false] at hs
  unfold FollowsSpecTable UEStateMachine.transition
  by_cases hr : r < (4 : ℚ)/5 <;>
    rcases hs with rfl | rfl | rfl | rfl | rfl | rfl | rfl | rfl | rfl | rfl | rfl | rfl <;>
      cases c <;>
        simp [transitionMsgState, hr]

/-- C7 witness: the table theorem applied to a UE in IDLE. -/
theorem C7_witness :
    ((⟨0, "IDLE", []⟩ : UEStateMachine).state ∈ ClosedStates) ∧
    FollowsSpecTable ⟨0, "IDLE", []⟩ 0 true :=
  ⟨by decide, C7_transition_total_table ⟨0, "IDLE", []⟩ 0 true (by decide)⟩

/-- The freshly built generator pool is nonempty (when asked for) and all its
machines start in the closed state set. -/
theorem initGen_closed (num_ues : ℕ) :
    ∀ ue ∈ (initGen num_ues).ues, ue.state ∈ ClosedStates := by
  intro ue hue
  simp only [initGen, List.mem_map, List.mem_range] at hue
  obtain ⟨i, -, rfl⟩ := hue
  simp [ClosedStates]

/-- C8: over every possible sequence of draws whose time increments lie in
[0.01, 0.5), the generated log's timestamps are strictly increasing across
the whole log and every gap between consecutive emitted timestamps lies in
[0.01, 0.5). -/
theorem C8_timestamps_increasing (num_ues : ℕ) (draws : List Draw)
    (hues : 0 < num_ues)
    (hd : ∀ d ∈ draws, 1/100 ≤ d.delta ∧ d.delta < 1/2) :
    List.Chain' goodGap (generate_dataset num_ues draws) ∧
    List.Pairwise (fun e1 e2 => e1.timestamp < e2.timestamp)
      (generate_dataset num_ues draws) := by
  have hpool : 0 < (initGen num_ues).ues.length := by simp [initGen, hues]
  have hchain : List.Chain' goodGap (generate_dataset num_ues draws) := by
    unfold generate_dataset
    exact gen_loop_chain draws (initGen num_ues) hpool (initGen_closed num_ues) hd
      (by simp [initGen]) (by simp [initGen])
  refine ⟨hchain, ?_⟩
  have hlt : List.Chain' (fun e1 e2 : Event => e1.timestamp < e2.timestamp)
      (generate_dataset num_ues draws) := by
    refine hchain.imp ?_
    intro e1 e2 h
    simp only [goodGap] at h
    linarith [h.1]
  haveI : IsTrans Event (fun e1 e2 : Event => e1.timestamp < e2.timestamp) :=
    ⟨fun _ _ _ h1 h2 => lt_trans h1 h2⟩
  exact List.chain'_iff_pairwise.mp hlt

/-- C8 witness: the timestamp theorem applied to a two-UE pool and two draws
with increments 1/10 and 1/4. -/
theorem C8_witness :
    (0 < 2 ∧ ∀ d ∈ ([⟨0, 0, true, 1/10⟩, ⟨3, 1, false, 1/4⟩] : List Draw),
      1/100 ≤ d.delta ∧ d.delta < 1/2) ∧
    (List.Chain' goodGap (generate_dataset 2 [⟨0, 0, true, 1/10⟩, ⟨3, 1, false, 1/4⟩]) ∧
     List.Pairwise (fun e1 e2 => e1.timestamp < e2.timestamp)
       (generate_dataset 2 [⟨0, 0, true, 1/10⟩, ⟨3, 1, false, 1/4⟩])) :=
  ⟨⟨by decide, by intro d hd; fin_cases hd <;> exact ⟨by norm_num, by norm_num⟩⟩,
    C8_timestamps_increasing 2 [⟨0, 0, true, 1/10⟩, ⟨3, 1, false, 1/4⟩] (by decide)
      (by intro d hd; fin_cases hd <;> exact ⟨by norm_num, by norm_num⟩)⟩

/-- C10: since the transition function emits a message from every reachable
state, the `if msg:` guard in generate_dataset never skips an iteration:
with a nonempty UE pool the generator emits exactly one event per loop
iteration, so an event-count of n yields exactly n events. -/
theorem C10_event_count (num_ues : ℕ) (draws : List Draw) (hues : 0 < num_ues) :
    (generate_dataset num_ues draws).length = draws.length := by
  unfold generate_dataset
  have h := gen_loop_count draws (initGen num_ues) (by simp [initGen, hues])
    (initGen_closed num_ues)
  simpa [initGen] using h

/-- C10 witness: three draws over a two-UE pool emit exactly three events. -/
theorem C10_witness :
    0 < 2 ∧
    (generate_dataset 2 [⟨0, 0, true, 1⟩, ⟨1, 1, false, 1⟩, ⟨5, 0, true, 1⟩]).length =
      ([⟨0, 0, true, 1⟩, ⟨1, 1, false, 1⟩, ⟨5, 0, true, 1⟩] : List Draw).length :=
  ⟨by decide, C10_event_count 2 _ (by decide)⟩

/-- The out-of-order pair ATTACH_ACCEPT → RRC_CONNECTION_REQUEST is rejected
by the pair check under every possible bootstrap outcome. -/
theorem pairAllowed_bad_pair (cycles : List (List (ℚ × Bool))) :
    pairAllowed (bootstrapPairs cycles)
      ("ATTACH_ACCEPT", "RRC_CONNECTION_REQUEST") = false := by
  have hnot : ("ATTACH_ACCEPT", "RRC_CONNECTION_REQUEST") ∉ bootstrapPairs cycles := by
    intro h
    have hcontra := bootstrapPairs_attach cycles _ h
    simp at hcontra
  have h1 : strContains "ATTACH_ACCEPT" "DATA" = false := by decide
  simp [pairAllowed, hnot, h1]

/-- C9: the validity oracle accepts a sequence only if every consecutive pair
(with the START sentinel in front) is in the bootstrapped pair set or is a
pair of two data-transfer messages; consequently, for every possible outcome
of the bootstrap sampling, any sequence with ATTACH_ACCEPT immediately
followed by RRC_CONNECTION_REQUEST is scored invalid, and a batch consisting
of such a sequence scores fraction 0. -/
theorem C9_validity_oracle (cycles : List (List (ℚ × Bool))) (seq : List String) :
    (seqValid (bootstrapPairs cycles) seq = true →
      ∀ p ∈ pairsWithStart seq, p ∈ bootstrapPairs cycles ∨
        (strContains p.1 "DATA" = true ∧ strContains p.2 "DATA" = true)) ∧
    (("ATTACH_ACCEPT", "RRC_CONNECTION_REQUEST") ∈ pairsWithStart seq →
      seqValid (bootstrapPairs cycles) seq = false) ∧
    (("ATTACH_ACCEPT", "RRC_CONNECTION_REQUEST") ∈ pairsWithStart seq →
      check_semantic_validity cycles [seq] = 0) := by
  have hkey : ("ATTACH_ACCEPT", "RRC_CONNECTION_REQUEST") ∈ pairsWithStart seq →
      seqValid (bootstrapPairs cycles) seq = false := by
    intro hmem
    cases hval : seqValid (bootstrapPairs cycles) seq with
    | false => rfl
    | true =>
      exfalso
      unfold seqValid at hval
      have hall := List.all_eq_true.mp hval _ hmem
      rw [pairAllowed_bad_pair] at hall
      exact Bool.false_ne_true hall
  refine ⟨?_, hkey, ?_⟩
  · intro hv p hp
    unfold seqValid at hv
    have hall := List.all_eq_true.mp hv p hp
    unfold pairAllowed at hall
    rcases Bool.or_eq_true_iff.mp hall with h | h
    · rcases Bool.or_eq_true_iff.mp h with h' | h'
      · exact Or.inl (of_decide_eq_true h')
      · exact Or.inl (of_decide_eq_true (Bool.and_eq_true_iff.mp h').2)
    · exact Or.inr (Bool.and_eq_true_iff.mp h)
  · intro hmem
    have hf := hkey hmem
    unfold check_semantic_validity
    rw [if_neg (by simp)]
    simp [List.filter, hf]

/-- C9 witness: the oracle theorem applied to a concrete bootstrap outcome and
the spec's out-of-order two-message sequence. -/
theorem C9_witness :
    (("ATTACH_ACCEPT", "RRC_CONNECTION_REQUEST") ∈
      pairsWithStart ["ATTACH_ACCEPT", "RRC_CONNECTION_REQUEST"]) ∧
    seqValid (bootstrapPairs [[(1, true)], [(0, false)]])
      ["ATTACH_ACCEPT", "RRC_CONNECTION_REQUEST"] = false :=
  ⟨by decide, (C9_validity_oracle [[(1, true)], [(0, false)]]
      ["ATTACH_ACCEPT", "RRC_CONNECTION_REQUEST"]).2.1 (by decide)⟩
